import Mathlib

/-!
Verification of the `pushback-iter` crate (`src/lib.rs`).

The crate provides `PushBackIterator<I>`, a wrapper around an iterator with a
`VecDeque<I::Item>` buffer, and `LookaheadIterator<'i, I>`, a borrowing view
that peeks successive elements without consuming them.

Shallow embedding conventions:

* The wrapped upstream iterator `inner: I` is modelled as the list of items it
  has yet to yield, in yield order; `inner.next()` pops the head.  This bakes
  in the standard single-pass producer contract (an exhausted producer stays
  exhausted), which is the stated assumption of the spec.
* The `VecDeque` buffer is modelled as a `List` stored back-to-front: the HEAD
  of the list is the BACK of the deque (the element `pop_back` removes, i.e.
  the next item `next()` emits) and the LAST element of the list is the FRONT
  of the deque (where `peek_nth` pushes items pulled from upstream, and where
  `next_back` falls back to).  Under this orientation:
    - `VecDeque::push_back item`  =  `item :: buffer`
    - `VecDeque::pop_back`        =  pop the list head
    - `VecDeque::push_front item` =  `buffer ++ [item]`
    - `VecDeque::pop_front`       =  pop the last list element
    - deque index `i` (0 = front) =  list index `buffer.length - 1 - i`,
      so the source expression `self.buffer[self.buffer.len() - n - 1]`
      is list index `n`
    - `VecDeque::truncate k` (keeps the `k` elements nearest the front,
      dropping from the back) = `buffer.drop (buffer.length - k)`
* Methods that mutate `&mut self` return a pair (result, new state).
* Rust's panicking index `buffer[idx]` is modelled with total indexing
  `buffer[n]?`; the theorem for the safety claim shows the index is in bounds
  whenever the source evaluates it.
-/

namespace PushbackIter

/-- State of `PushBackIterator<I>`: `buffer` is the `VecDeque` stored
back-to-front (head = deque back = next item a forward pull emits), `inner`
is the list of items the wrapped iterator has yet to yield. -/
structure PushBackIterator (α : Type) where
  buffer : List α
  inner : List α
deriving DecidableEq, Repr

namespace PushBackIterator

variable {α : Type}

/-- Embeds `push_back`: `self.buffer.push_back(item)`.  The deque back is the
head of our back-to-front list. -/
def push_back (s : PushBackIterator α) (item : α) : PushBackIterator α :=
  { s with buffer := item :: s.buffer }

/-- Embeds `Iterator::next`:
`self.buffer.pop_back().or_else(|| self.inner.next())`. -/
def next (s : PushBackIterator α) : Option α × PushBackIterator α :=
  match s.buffer with
  | x :: b => (some x, { s with buffer := b })
  | [] =>
    match s.inner with
    | y :: ys => (some y, { s with inner := ys })
    | [] => (none, s)

/-- Embeds the loop in `peek_nth`:
`for _ in 0..=(n - self.buffer.len()) { self.buffer.push_front(self.inner.next()?); }`.
Pulls up to `k` items from `inner`, pushing each onto the deque front (the
tail of our back-to-front list).  Returns the state reached together with
`true` if all `k` pulls succeeded; on a failed pull the `?` operator aborts
the loop but the pulls already made are kept (no rollback). -/
def pullToBuffer : PushBackIterator α → Nat → PushBackIterator α × Bool
  | s, 0 => (s, true)
  | s, k + 1 =>
    match s.inner with
    | [] => (s, false)
    | y :: ys => pullToBuffer ⟨s.buffer ++ [y], ys⟩ k

/-- Embeds `peek_nth`.  The source guard is `n >= self.buffer.len()`, the loop
runs `n - self.buffer.len() + 1` times, and the final expression
`self.buffer[self.buffer.len() - n - 1]` is list index `n` of our
back-to-front buffer (see the module docstring).  The early return of the `?`
operator yields `None` while keeping the partially filled buffer. -/
def peek_nth (s : PushBackIterator α) (n : Nat) : Option α × PushBackIterator α :=
  if s.buffer.length ≤ n then
    let r := pullToBuffer s (n - s.buffer.length + 1)
    if r.2 then (r.1.buffer[n]?, r.1) else (none, r.1)
  else
    (s.buffer[n]?, s)

/-- Embeds `peek`: `self.peek_nth(0)`. -/
def peek (s : PushBackIterator α) : Option α × PushBackIterator α :=
  peek_nth s 0

/-- Embeds `Iterator::nth`.  When `n < self.buffer.len()`, the source does
`self.buffer.truncate(self.buffer.len() - n)` — keeping the `len - n` deque
elements nearest the front, i.e. dropping the first `n` of our back-to-front
list — and then `pop_back`.  Otherwise it clears the buffer and delegates
`self.inner.nth(n - len)`; on the list model of the upstream iterator,
`nth m` yields element `m` and consumes `m + 1` items. -/
def nth (s : PushBackIterator α) (n : Nat) : Option α × PushBackIterator α :=
  if n < s.buffer.length then
    match s.buffer.drop n with
    | x :: b => (some x, { s with buffer := b })
    | [] => (none, { s with buffer := [] })
  else
    let m := n - s.buffer.length
    (s.inner[m]?, { buffer := [], inner := s.inner.drop (m + 1) })

/-- Embeds `Iterator::count`: `self.buffer.len() + self.inner.count()`. -/
def count (s : PushBackIterator α) : Nat :=
  s.buffer.length + s.inner.length

/-- Embeds `Iterator::last`: `self.inner.last()` — the buffer is ignored. -/
def last (s : PushBackIterator α) : Option α :=
  s.inner.getLast?

/-- Embeds `DoubleEndedIterator::next_back`:
`self.inner.next_back().or_else(|| self.buffer.pop_front())`.  On the list
model the upstream `next_back` pops the last remaining upstream item; the
deque front is the last element of our back-to-front list. -/
def next_back (s : PushBackIterator α) : Option α × PushBackIterator α :=
  match s.inner.getLast? with
  | some y => (some y, { s with inner := s.inner.dropLast })
  | none =>
    match s.buffer.getLast? with
    | some x => (some x, { s with buffer := s.buffer.dropLast })
    | none => (none, s)

end PushBackIterator

/-- State of `LookaheadIterator<'i, I>`: the exclusively borrowed adapter and
the `pos` counter. -/
structure LookaheadIterator (α : Type) where
  inner : PushBackIterator α
  pos : Nat
deriving DecidableEq, Repr

/-- Embeds `PushBackIterator::lookahead`: a fresh view with `pos: 0`. -/
def PushBackIterator.lookahead {α : Type} (s : PushBackIterator α) :
    LookaheadIterator α :=
  ⟨s, 0⟩

/-- Embeds `Iterator::next` for `LookaheadIterator`:
`let next = self.inner.peek_nth(self.pos); self.pos += 1; next.cloned()`.
Note `pos` is incremented on every call, whether or not an item is produced;
cloning is the identity on the model's values. -/
def LookaheadIterator.next {α : Type} (la : LookaheadIterator α) :
    Option α × LookaheadIterator α :=
  ((PushBackIterator.peek_nth la.inner la.pos).1,
    ⟨(PushBackIterator.peek_nth la.inner la.pos).2, la.pos + 1⟩)

/-! Derived observation functions, defined through `next` so that theorems
about "sequences of `next()` calls" genuinely speak about the embedded
`next`. -/

section Observations

variable {α : Type}

open PushBackIterator

/-- Performs up to `k` consecutive `next()` calls, collecting the produced
values in order and stopping at the first absence (as Rust's
`take(k).collect()` would). -/
def nextN : Nat → PushBackIterator α → List α × PushBackIterator α
  | 0, s => ([], s)
  | k + 1, s =>
    match PushBackIterator.next s with
    | (some x, s') =>
      let r := nextN k s'
      (x :: r.1, r.2)
    | (none, s') => ([], s')

/-- The state reached after `k` consecutive `next()` calls. -/
def advance (k : Nat) (s : PushBackIterator α) : PushBackIterator α :=
  (nextN k s).2

/-- Every item the adapter will ever emit, obtained by pulling with `next`
until exhaustion. -/
def drain (s : PushBackIterator α) : List α :=
  (nextN (s.buffer.length + s.inner.length) s).1

/-- Performs up to `k` consecutive `next()` calls on a lookahead view,
collecting the produced values and stopping at the first absence (as Rust's
`take(k).collect()` would). -/
def takeLookahead : Nat → LookaheadIterator α → List α × LookaheadIterator α
  | 0, la => ([], la)
  | k + 1, la =>
    match LookaheadIterator.next la with
    | (some v, la') =>
      let r := takeLookahead k la'
      (v :: r.1, r.2)
    | (none, la') => ([], la')

end Observations

/-! Helper lemmas shared by the claim theorems. -/

section Helpers

variable {α : Type}

open PushBackIterator

theorem nextN_eq : ∀ (k : Nat) (s : PushBackIterator α),
    nextN k s = ((s.buffer ++ s.inner).take k,
      ⟨s.buffer.drop k, s.inner.drop (k - s.buffer.length)⟩)
  | 0, s => by simp [nextN]
  | k + 1, ⟨x :: b, i⟩ => by
    simp only [nextN, next, nextN_eq k ⟨b, i⟩]
    simp [List.cons_append, Nat.succ_sub_succ]
  | k + 1, ⟨[], y :: ys⟩ => by
    simp only [nextN, next, nextN_eq k ⟨[], ys⟩]
    simp
  | k + 1, ⟨[], []⟩ => by
    simp [nextN, next]

theorem drain_eq (s : PushBackIterator α) : drain s = s.buffer ++ s.inner := by
  rw [drain, nextN_eq]
  simp [← List.length_append, List.take_length]

theorem advance_eq (k : Nat) (s : PushBackIterator α) :
    advance k s = ⟨s.buffer.drop k, s.inner.drop (k - s.buffer.length)⟩ := by
  rw [advance, nextN_eq]

theorem next_fst (s : PushBackIterator α) :
    (PushBackIterator.next s).1 = (s.buffer ++ s.inner).head? := by
  rcases s with ⟨b, i⟩
  cases b with
  | cons x b => simp [PushBackIterator.next]
  | nil => cases i <;> simp [PushBackIterator.next]

theorem next_advance_fst (k : Nat) (s : PushBackIterator α) :
    (PushBackIterator.next (advance k s)).1 = (s.buffer ++ s.inner)[k]? := by
  rw [next_fst, advance_eq]
  show (s.buffer.drop k ++ s.inner.drop (k - s.buffer.length)).head? = _
  rw [← List.drop_append_eq_append_drop, List.head?_eq_getElem?,
    List.getElem?_drop, Nat.add_zero]

theorem pullToBuffer_eq : ∀ (s : PushBackIterator α) (k : Nat),
    pullToBuffer s k =
      (⟨s.buffer ++ s.inner.take k, s.inner.drop k⟩,
        decide (k ≤ s.inner.length))
  | s, 0 => by simp [pullToBuffer]
  | ⟨b, []⟩, k + 1 => by simp [pullToBuffer]
  | ⟨b, y :: ys⟩, k + 1 => by
    simp only [pullToBuffer, pullToBuffer_eq ⟨b ++ [y], ys⟩ k]
    simp [List.append_assoc, Nat.succ_le_succ_iff]

theorem peek_nth_fst (s : PushBackIterator α) (n : Nat) :
    (peek_nth s n).1 = (s.buffer ++ s.inner)[n]? := by
  by_cases h : s.buffer.length ≤ n
  · simp only [peek_nth, if_pos h, pullToBuffer_eq]
    by_cases hk : n - s.buffer.length + 1 ≤ s.inner.length
    · simp only [decide_eq_true hk, if_true]
      rw [List.getElem?_append_right h, List.getElem?_append_right h,
        List.getElem?_take_of_lt (show n - s.buffer.length < n - s.buffer.length + 1 by omega)]
    · simp only [decide_eq_false hk, Bool.false_eq_true, if_false]
      rw [eq_comm, List.getElem?_eq_none]
      simp only [List.length_append]
      omega
  · simp only [peek_nth, if_neg h]
    exact (List.getElem?_append_left (by omega)).symm

theorem peek_nth_snd_lt (s : PushBackIterator α) (n : Nat)
    (h : n < s.buffer.length) : (peek_nth s n).2 = s := by
  rw [peek_nth, if_neg (by omega)]

theorem peek_nth_snd_ge (s : PushBackIterator α) (n : Nat)
    (h : s.buffer.length ≤ n) :
    (peek_nth s n).2 = ⟨s.buffer ++ s.inner.take (n + 1 - s.buffer.length),
      s.inner.drop (n + 1 - s.buffer.length)⟩ := by
  have e : n - s.buffer.length + 1 = n + 1 - s.buffer.length := by omega
  simp only [peek_nth, if_pos h, pullToBuffer_eq, e]
  split <;> rfl

theorem peek_nth_frame (s : PushBackIterator α) (n : Nat) :
    (peek_nth s n).2.buffer ++ (peek_nth s n).2.inner = s.buffer ++ s.inner := by
  by_cases h : s.buffer.length ≤ n
  · rw [peek_nth_snd_ge s n h]
    simp [List.append_assoc, List.take_append_drop]
  · rw [peek_nth_snd_lt s n (by omega)]

theorem peek_nth_growth (s : PushBackIterator α) (n : Nat) :
    ∃ t, (peek_nth s n).2.buffer = s.buffer ++ t ∧
      (peek_nth s n).2.inner = s.inner.drop t.length := by
  by_cases h : s.buffer.length ≤ n
  · refine ⟨s.inner.take (n + 1 - s.buffer.length), ?_, ?_⟩
    · rw [peek_nth_snd_ge s n h]
    · rw [peek_nth_snd_ge s n h]
      simp only [List.length_take]
      by_cases hk : n + 1 - s.buffer.length ≤ s.inner.length
      · rw [Nat.min_eq_left hk]
      · rw [Nat.min_eq_right (by omega),
          List.drop_of_length_le (by omega),
          List.drop_of_length_le (Nat.le_refl _)]
  · exact ⟨[], by simp [peek_nth_snd_lt s n (by omega)]⟩

theorem foldl_push_back (xs : List α) : ∀ (s : PushBackIterator α),
    xs.foldl PushBackIterator.push_back s = ⟨xs.reverse ++ s.buffer, s.inner⟩ := by
  induction xs with
  | nil => intro s; simp
  | cons x xs ih =>
    intro s
    simp [List.foldl_cons, ih, PushBackIterator.push_back, List.append_assoc]

theorem nextN_fst (k : Nat) (s : PushBackIterator α) :
    (nextN k s).1 = (s.buffer ++ s.inner).take k := by
  rw [nextN_eq]

theorem nth_eq_lt (s : PushBackIterator α) (n : Nat) (h : n < s.buffer.length) :
    PushBackIterator.nth s n = (s.buffer[n]?, ⟨s.buffer.drop (n + 1), s.inner⟩) := by
  rw [PushBackIterator.nth, if_pos h, List.drop_eq_getElem_cons h,
    List.getElem?_eq_getElem h]

theorem nth_eq_ge (s : PushBackIterator α) (n : Nat) (h : s.buffer.length ≤ n) :
    PushBackIterator.nth s n
      = (s.inner[n - s.buffer.length]?,
          ⟨[], s.inner.drop (n - s.buffer.length + 1)⟩) := by
  rw [PushBackIterator.nth, if_neg (by omega)]

theorem next_back_some_inner (b i : List α) (h : i ≠ []) :
    PushBackIterator.next_back ⟨b, i⟩ = (i.getLast?, ⟨b, i.dropLast⟩) := by
  cases hg : i.getLast? with
  | none => exact absurd (List.getLast?_eq_none_iff.mp hg) h
  | some y => simp only [PushBackIterator.next_back, hg]

theorem next_back_empty_inner (b : List α) :
    PushBackIterator.next_back ⟨b, []⟩ = (b.getLast?, ⟨b.dropLast, []⟩) := by
  cases hb : b.getLast? with
  | none =>
    have hbnil : b = [] := List.getLast?_eq_none_iff.mp hb
    subst hbnil
    rfl
  | some x => simp only [PushBackIterator.next_back, List.getLast?_nil, hb]

end Helpers

/-! Claim theorems. -/

section Claims

variable {α : Type}

open PushBackIterator

/-- C1: Push/pull LIFO law.  Pushing `x` back and then pulling returns `x`
first and restores the adapter's state exactly, so the most recently pushed
item is returned ahead of anything already buffered from earlier pushes;
and from a state with an empty buffer, consecutive `next()` calls return
exactly the remaining upstream items in upstream order, followed by
absence. -/
theorem push_pull_lifo (s : PushBackIterator α) (x : α) :
    PushBackIterator.next (PushBackIterator.push_back s x) = (some x, s) ∧
    (s.buffer = [] →
      (nextN s.inner.length s).1 = s.inner ∧
      (PushBackIterator.next (advance s.inner.length s)).1 = none) := by
  refine ⟨rfl, fun hb => ⟨?_, ?_⟩⟩
  · rw [nextN_fst, hb, List.nil_append, List.take_length]
  · rw [next_advance_fst, hb, List.nil_append]
    exact List.getElem?_eq_none (Nat.le_refl _)

theorem push_pull_lifo_witness :
    PushBackIterator.next
        (PushBackIterator.push_back (⟨[], [1, 2]⟩ : PushBackIterator Nat) 5)
      = (some 5, ⟨[], [1, 2]⟩) ∧
    (nextN 2 (⟨[], [1, 2]⟩ : PushBackIterator Nat)).1 = [1, 2] :=
  ⟨(push_pull_lifo ⟨[], [1, 2]⟩ 5).1, ((push_pull_lifo ⟨[], [1, 2]⟩ 5).2 rfl).1⟩

/-- C2: `peek_nth n` returns the value the `(n+1)`-th consecutive `next()`
call would produce, consumes nothing observable (the drained sequence is
unchanged); when the buffer is deep enough the state is untouched, and
otherwise exactly `n + 1 - buffer.len()` items are moved from upstream into
the buffer preserving arrival order — saturating at upstream exhaustion, in
which case the result is absence and the buffer retains everything pulled
(no rollback). -/
theorem peek_nth_spec (s : PushBackIterator α) (n : Nat) :
    (PushBackIterator.peek_nth s n).1 = (drain s)[n]? ∧
    drain (PushBackIterator.peek_nth s n).2 = drain s ∧
    (n < s.buffer.length → (PushBackIterator.peek_nth s n).2 = s) ∧
    (s.buffer.length ≤ n →
      (PushBackIterator.peek_nth s n).2.buffer
          = s.buffer ++ s.inner.take (n + 1 - s.buffer.length) ∧
      (PushBackIterator.peek_nth s n).2.inner
          = s.inner.drop (n + 1 - s.buffer.length)) := by
  refine ⟨?_, ?_, peek_nth_snd_lt s n, fun h => ?_⟩
  · rw [peek_nth_fst, drain_eq]
  · rw [drain_eq, drain_eq, peek_nth_frame]
  · rw [peek_nth_snd_ge s n h]
    exact ⟨rfl, rfl⟩

theorem peek_nth_spec_witness :
    (⟨[], [7, 8]⟩ : PushBackIterator Nat).buffer.length ≤ 1 ∧
    (PushBackIterator.peek_nth (⟨[], [7, 8]⟩ : PushBackIterator Nat) 1).2.buffer
      = [7, 8] :=
  ⟨by decide, ((peek_nth_spec (⟨[], [7, 8]⟩ : PushBackIterator Nat) 1).2.2.2
    (by decide)).1⟩

/-- C3: Peek/pull consistency.  If `peek_nth k` returns `some v`, then the
`k + 1` consecutive `next()` calls performed afterwards produce the same
values as they would have without the peek, the first `k` of them are exactly
the values `k` pulls from the unpeeked state produce, and the `(k+1)`-th
pulled value is `v`. -/
theorem peek_pull_consistency (s : PushBackIterator α) (k : Nat) (v : α)
    (h : (PushBackIterator.peek_nth s k).1 = some v) :
    (nextN (k + 1) (PushBackIterator.peek_nth s k).2).1 = (nextN (k + 1) s).1 ∧
    ((nextN (k + 1) (PushBackIterator.peek_nth s k).2).1).take k = (nextN k s).1 ∧
    ((nextN (k + 1) (PushBackIterator.peek_nth s k).2).1)[k]? = some v := by
  have hval := peek_nth_fst s k
  rw [h] at hval
  refine ⟨?_, ?_, ?_⟩
  · rw [nextN_fst, nextN_fst, peek_nth_frame]
  · rw [nextN_fst, nextN_fst, peek_nth_frame, List.take_take,
      Nat.min_eq_left (Nat.le_succ k)]
  · rw [nextN_fst, peek_nth_frame,
      List.getElem?_take_of_lt (Nat.lt_succ_self k)]
    exact hval.symm

theorem peek_pull_consistency_witness :
    (PushBackIterator.peek_nth (⟨[], [0, 1, 2]⟩ : PushBackIterator Nat) 1).1
      = some 1 ∧
    (nextN 2 (PushBackIterator.peek_nth
        (⟨[], [0, 1, 2]⟩ : PushBackIterator Nat) 1).2).1[1]? = some 1 :=
  ⟨by decide, (peek_pull_consistency ⟨[], [0, 1, 2]⟩ 1 1 (by decide)).2.2⟩

/-- C4: `nth n` has skip-and-return semantics.  Its result is exactly the
value the `(n+1)`-th consecutive `next()` call would return, and its final
state is exactly the state `n + 1` consecutive `next()` calls reach (so
nothing is skipped twice or returned twice and the adapter is positioned
immediately after the returned item).  Within the buffer it discards the `n`
buffered items nearest the return end and pops the next one; past the buffer
it clears the buffer and delegates the remaining skip to upstream. -/
theorem nth_spec (s : PushBackIterator α) (n : Nat) :
    (PushBackIterator.nth s n).1 = (PushBackIterator.next (advance n s)).1 ∧
    (PushBackIterator.nth s n).2 = advance (n + 1) s ∧
    (n < s.buffer.length →
      (PushBackIterator.nth s n).1 = s.buffer[n]? ∧
      (PushBackIterator.nth s n).2.buffer = s.buffer.drop (n + 1) ∧
      (PushBackIterator.nth s n).2.inner = s.inner) ∧
    (s.buffer.length ≤ n →
      (PushBackIterator.nth s n).1 = s.inner[n - s.buffer.length]? ∧
      (PushBackIterator.nth s n).2.buffer = [] ∧
      (PushBackIterator.nth s n).2.inner
        = s.inner.drop (n - s.buffer.length + 1)) := by
  by_cases h : n < s.buffer.length
  · rw [nth_eq_lt s n h]
    refine ⟨?_, ?_, fun _ => ⟨rfl, rfl, rfl⟩, fun hc => absurd hc (by omega)⟩
    · rw [next_advance_fst]
      exact (List.getElem?_append_left h).symm
    · rw [advance_eq, Nat.sub_eq_zero_of_le (by omega), List.drop_zero]
  · rw [nth_eq_ge s n (by omega)]
    refine ⟨?_, ?_, fun hc => absurd hc (by omega), fun _ => ⟨rfl, rfl, rfl⟩⟩
    · rw [next_advance_fst]
      exact (List.getElem?_append_right (by omega)).symm
    · rw [advance_eq]
      show (⟨[], s.inner.drop (n - s.buffer.length + 1)⟩ : PushBackIterator α) = _
      congr 1
      · exact (List.drop_of_length_le (by omega)).symm
      · congr 1
        omega

theorem nth_spec_witness :
    (⟨[10, 11], [0, 1]⟩ : PushBackIterator Nat).buffer.length ≤ 3 ∧
    (PushBackIterator.nth (⟨[10, 11], [0, 1]⟩ : PushBackIterator Nat) 3).1
      = some 1 ∧
    (PushBackIterator.nth (⟨[10, 11], [0, 1]⟩ : PushBackIterator Nat) 3).2.inner
      = [] :=
  ⟨by decide,
    ((nth_spec (⟨[10, 11], [0, 1]⟩ : PushBackIterator Nat) 3).2.2.2 (by decide)).1,
    ((nth_spec (⟨[10, 11], [0, 1]⟩ : PushBackIterator Nat) 3).2.2.2 (by decide)).2.2⟩

end Claims

section LookaheadHelpers

variable {α : Type}

open PushBackIterator

theorem takeLookahead_general : ∀ (k pos : Nat) (s : PushBackIterator α),
    (takeLookahead k ⟨s, pos⟩).1 = ((s.buffer ++ s.inner).drop pos).take k ∧
    (takeLookahead k ⟨s, pos⟩).2.inner.buffer
        ++ (takeLookahead k ⟨s, pos⟩).2.inner.inner = s.buffer ++ s.inner ∧
    ∃ t, (takeLookahead k ⟨s, pos⟩).2.inner.buffer = s.buffer ++ t ∧
      (takeLookahead k ⟨s, pos⟩).2.inner.inner = s.inner.drop t.length
  | 0, pos, s =>
    ⟨by simp [takeLookahead], rfl, ⟨[], by simp [takeLookahead], by simp [takeLookahead]⟩⟩
  | k + 1, pos, s => by
    have hval := peek_nth_fst s pos
    have hframe := peek_nth_frame s pos
    obtain ⟨t1, ht1b, ht1i⟩ := peek_nth_growth s pos
    cases hp : (PushBackIterator.peek_nth s pos).1 with
    | none =>
      have hlen : (s.buffer ++ s.inner).length ≤ pos := by
        rw [hp] at hval
        exact List.getElem?_eq_none_iff.mp hval.symm
      simp only [takeLookahead, LookaheadIterator.next, hp]
      refine ⟨?_, hframe, ⟨t1, ht1b, ht1i⟩⟩
      rw [List.drop_of_length_le hlen, List.take_nil]
    | some v =>
      have hvs : (s.buffer ++ s.inner)[pos]? = some v := by rw [← hval, hp]
      have hpos : pos < (s.buffer ++ s.inner).length := by
        by_contra hc
        rw [List.getElem?_eq_none (by omega)] at hvs
        exact Option.noConfusion hvs
      obtain ⟨ih1, ih2, t2, ht2b, ht2i⟩ :=
        takeLookahead_general k (pos + 1) (PushBackIterator.peek_nth s pos).2
      simp only [takeLookahead, LookaheadIterator.next, hp]
      refine ⟨?_, ?_, ?_⟩
      · rw [ih1, hframe, List.drop_eq_getElem_cons hpos, List.take_succ_cons]
        have hg := List.getElem?_eq_getElem hpos
        rw [hvs] at hg
        rw [Option.some.inj hg]
      · rw [ih2, hframe]
      · refine ⟨t1 ++ t2, ?_, ?_⟩
        · rw [ht2b, ht1b, List.append_assoc]
        · rw [ht2i, ht1i, List.drop_drop, List.length_append]

end LookaheadHelpers

section ClaimsTwo

variable {α : Type}

open PushBackIterator

/-- C5: Lookahead non-consumption.  Taking `k` items from a freshly created
lookahead view returns copies of exactly the next `k` items the adapter
would yield; afterwards the adapter's drained sequence is unchanged (nothing
skipped, nothing duplicated beyond the view's copies); and the view only
grows the adapter's buffer — the final buffer extends the original one, with
exactly the items moved in from upstream appended, so unconsumed peeked
items remain available to forward pulls. -/
theorem lookahead_nonconsuming (s : PushBackIterator α) (k : Nat) :
    (takeLookahead k (PushBackIterator.lookahead s)).1 = (drain s).take k ∧
    drain (takeLookahead k (PushBackIterator.lookahead s)).2.inner = drain s ∧
    ∃ t, (takeLookahead k (PushBackIterator.lookahead s)).2.inner.buffer
          = s.buffer ++ t ∧
      (takeLookahead k (PushBackIterator.lookahead s)).2.inner.inner
          = s.inner.drop t.length := by
  obtain ⟨h1, h2, h3⟩ := takeLookahead_general k 0 s
  rw [List.drop_zero] at h1
  refine ⟨?_, ?_, h3⟩
  · rw [drain_eq]
    exact h1
  · rw [drain_eq, drain_eq]
    exact h2

/-- C6 counterexample: on an exhausted adapter, a lookahead view's `next()`
increments `pos` from 0 to 1 even though it produces no item, refuting
"position is incremented exactly when an item is produced" at this input. -/
theorem lookahead_increment_cex :
    ¬ (((LookaheadIterator.next (⟨⟨[], []⟩, 0⟩ : LookaheadIterator Nat)).2.pos
          = 0 + 1) →
        (LookaheadIterator.next
          (⟨⟨[], []⟩, 0⟩ : LookaheadIterator Nat)).1.isSome = true) := by
  decide

/-- C6 amended: each `next()` on a lookahead view returns (an owned
duplicate of) the value `peek_nth(pos)` yields on the borrowed adapter,
leaves the adapter's observable stream unchanged, and increments `pos` by
one on every call — hence `pos` strictly increases by one per produced item,
but it is incremented also on calls that produce nothing. -/
theorem lookahead_next_spec (la : LookaheadIterator α) :
    (LookaheadIterator.next la).1
        = (PushBackIterator.peek_nth la.inner la.pos).1 ∧
    (LookaheadIterator.next la).1 = (drain la.inner)[la.pos]? ∧
    (LookaheadIterator.next la).2.pos = la.pos + 1 ∧
    drain (LookaheadIterator.next la).2.inner = drain la.inner := by
  refine ⟨rfl, ?_, rfl, ?_⟩
  · rw [drain_eq]
    exact peek_nth_fst la.inner la.pos
  · show drain (PushBackIterator.peek_nth la.inner la.pos).2 = drain la.inner
    rw [drain_eq, drain_eq]
    exact peek_nth_frame la.inner la.pos

/-- C7: Exhaustion stability.  `next()` returns absence exactly when the
buffer is empty and upstream is exhausted; such a call leaves the state
unchanged, so repeated pulls keep returning absence; and after pushing items
onto an exhausted adapter, exactly the pushed items are returned, in LIFO
order, before absence resumes.  (Upstream is a list in the model, so the
fused single-pass contract the spec assumes holds by construction.) -/
theorem exhaustion_stability (s : PushBackIterator α) (xs : List α) :
    ((PushBackIterator.next s).1 = none ↔ s.buffer = [] ∧ s.inner = []) ∧
    ((PushBackIterator.next s).1 = none → PushBackIterator.next s = (none, s)) ∧
    (s.buffer = [] → s.inner = [] →
      (nextN xs.length (xs.foldl PushBackIterator.push_back s)).1 = xs.reverse ∧
      (PushBackIterator.next
        (advance xs.length (xs.foldl PushBackIterator.push_back s))).1 = none) := by
  refine ⟨?_, ?_, fun hb hi => ?_⟩
  · rw [next_fst]
    simp
  · intro h
    rcases s with ⟨b, i⟩
    cases b with
    | cons x b => exact absurd h (by simp [PushBackIterator.next])
    | nil =>
      cases i with
      | cons y ys => exact absurd h (by simp [PushBackIterator.next])
      | nil => rfl
  · rw [foldl_push_back, hb, hi]
    constructor
    · rw [nextN_fst]
      simp only [List.append_nil]
      rw [← List.length_reverse xs, List.take_length]
    · rw [next_advance_fst]
      simp only [List.append_nil]
      exact List.getElem?_eq_none (by simp)

theorem exhaustion_stability_witness :
    (nextN 2 (([1, 2] : List Nat).foldl PushBackIterator.push_back ⟨[], []⟩)).1
      = [2, 1] :=
  ((exhaustion_stability (⟨[], []⟩ : PushBackIterator Nat) [1, 2]).2.2 rfl rfl).1

/-- C8: `last()` returns the final item of the upstream producer, ignoring
the buffer, while `count()` does count the buffered items (it equals the
length of the full drained sequence).  In particular, with upstream
exhausted and a non-empty buffer, `last()` returns absence even though
`next()` would still yield the buffered items. -/
theorem last_ignores_buffer (s : PushBackIterator α) :
    PushBackIterator.last s = s.inner.getLast? ∧
    PushBackIterator.count s = (drain s).length ∧
    (s.inner = [] → s.buffer ≠ [] →
      PushBackIterator.last s = none ∧
      (PushBackIterator.next s).1 = s.buffer.head? ∧
      (PushBackIterator.next s).1.isSome = true) := by
  rcases s with ⟨b, i⟩
  refine ⟨rfl, ?_, ?_⟩
  · rw [drain_eq, PushBackIterator.count, List.length_append]
  · rintro rfl hb
    refine ⟨rfl, ?_, ?_⟩
    · rw [next_fst, List.append_nil]
    · rw [next_fst, List.append_nil]
      cases b with
      | nil => exact absurd rfl hb
      | cons x b => rfl

theorem last_ignores_buffer_witness :
    PushBackIterator.last (⟨[5], []⟩ : PushBackIterator Nat) = none ∧
    (PushBackIterator.next (⟨[5], []⟩ : PushBackIterator Nat)).1.isSome = true :=
  ⟨((last_ignores_buffer ⟨[5], []⟩).2.2 rfl (by decide)).1,
    ((last_ignores_buffer ⟨[5], []⟩).2.2 rfl (by decide)).2.2⟩

/-- C9: `next_back()` is satisfied from upstream first: while upstream has
items it removes and returns upstream's final item, leaving the buffer
untouched; only when upstream is exhausted does it remove from the buffer
end opposite the forward-pull end — the item forward pulls would emit last,
which for a buffer built by pushes alone is the oldest-pushed item. -/
theorem next_back_spec (s : PushBackIterator α) (xs : List α) :
    (s.inner ≠ [] →
      (PushBackIterator.next_back s).1 = s.inner.getLast? ∧
      (PushBackIterator.next_back s).2 = ⟨s.buffer, s.inner.dropLast⟩) ∧
    (s.inner = [] →
      (PushBackIterator.next_back s).1 = s.buffer.getLast? ∧
      (PushBackIterator.next_back s).2 = ⟨s.buffer.dropLast, []⟩ ∧
      (PushBackIterator.next_back s).1 = (drain s).getLast?) ∧
    (PushBackIterator.next_back
        (xs.foldl PushBackIterator.push_back ⟨[], []⟩)).1 = xs.head? := by
  refine ⟨fun hi => ?_, fun hi => ?_, ?_⟩
  · rcases s with ⟨b, i⟩
    rw [next_back_some_inner b i hi]
    exact ⟨rfl, rfl⟩
  · rcases s with ⟨b, i⟩
    cases hi
    rw [next_back_empty_inner b]
    refine ⟨rfl, rfl, ?_⟩
    simp [drain_eq]
  · rw [foldl_push_back, next_back_empty_inner]
    simp only [List.append_nil, List.getLast?_reverse]

theorem next_back_spec_witness :
    (PushBackIterator.next_back (⟨[10, 11], [0, 1]⟩ : PushBackIterator Nat)).1
      = some 1 ∧
    (PushBackIterator.next_back (⟨[10, 11], []⟩ : PushBackIterator Nat)).1
      = some 11 :=
  ⟨((next_back_spec (⟨[10, 11], [0, 1]⟩ : PushBackIterator Nat) []).1 (by decide)).1,
    ((next_back_spec (⟨[10, 11], []⟩ : PushBackIterator Nat) []).2.1 rfl).1⟩

/-- C10: `peek_nth` is panic-free.  The subtraction `n - buffer.len()` is
evaluated only under the guard `buffer.len() <= n`, where it does not
underflow (it is the exact difference); and whenever the indexing expression
`buffer[buffer.len() - n - 1]` is reached — either without refilling
(`n < buffer.len()`) or after the refill loop completed — the buffer holds
at least `n + 1` items, so the index is in bounds and the peek produces a
value. -/
theorem peek_nth_panic_free (s : PushBackIterator α) (n : Nat) :
    (s.buffer.length ≤ n → n - s.buffer.length + s.buffer.length = n) ∧
    (n < s.buffer.length →
      s.buffer.length - n - 1 < s.buffer.length ∧
      (PushBackIterator.peek_nth s n).1.isSome = true) ∧
    (s.buffer.length ≤ n →
      (pullToBuffer s (n - s.buffer.length + 1)).2 = true →
      (pullToBuffer s (n - s.buffer.length + 1)).1.buffer.length = n + 1 ∧
      (PushBackIterator.peek_nth s n).1.isSome = true) := by
  refine ⟨fun h => by omega, fun h => ⟨by omega, ?_⟩, fun h hok => ?_⟩
  · rw [peek_nth_fst s n,
      List.getElem?_eq_getElem (by rw [List.length_append]; omega)]
    rfl
  · have hk : n - s.buffer.length + 1 ≤ s.inner.length := by
      have h2 := hok
      rw [pullToBuffer_eq] at h2
      exact of_decide_eq_true h2
    refine ⟨?_, ?_⟩
    · rw [pullToBuffer_eq]
      simp only [List.length_append, List.length_take]
      omega
    · rw [peek_nth_fst s n,
        List.getElem?_eq_getElem (by rw [List.length_append]; omega)]
      rfl

theorem peek_nth_panic_free_witness :
    (pullToBuffer (⟨[], [0, 1]⟩ : PushBackIterator Nat) 2).2 = true ∧
    (pullToBuffer (⟨[], [0, 1]⟩ : PushBackIterator Nat) 2).1.buffer.length = 2 :=
  ⟨by decide,
    ((peek_nth_panic_free (⟨[], [0, 1]⟩ : PushBackIterator Nat) 1).2.2
      (by decide) (by decide)).1⟩

end ClaimsTwo

end PushbackIter
